import Mathlib

/-!
Verification of the `bitstream-go` repository (`bitstream.go`): a bit-addressable
reader over a slice of fixed-width unsigned words and an append-only writer that
grows such a slice, both with configurable left/right padding inside every word.

Shallow embedding conventions:
* a Go word of width `size` is a `Nat` (writer-produced words stay `< 2 ^ size`
  because only single bits inside the valid span are ever set);
* the reader's `uint64` accumulator in `right` is modelled exactly, with
  `% 2 ^ 64` applied at every left shift, as Go wraps;
* Go `panic` is modelled by an `Option` result (reader constructors / readers)
  or by a `BitWriter × Bool` pair whose `Bool` records that the call panicked
  and whose writer component is the untouched receiver (a Go panic fires before
  any mutation in those functions);
* slice indexing `data[i]` is `List.getD data i 0`; the separately defined
  checked variant `rightChecked` makes the out-of-bounds branch explicit.
-/

namespace Bitstream

/-- The bit of `data` selected by logical index `i` under geometry `(s, msb)`:
word `i / s`, mask `msb >>> (i % s)`.  This is the mask arithmetic shared
verbatim by `BitReader.right` and `BitWriter.write` in `bitstream.go`. -/
def bitAt (s msb : Nat) (data : List Nat) (i : Nat) : Bool :=
  decide (data.getD (i / s) 0 &&& (msb >>> (i % s)) ≠ 0)

/-- MSB-first accumulation of a list of bits into a natural number
(`b <<= 1; if bit { b |= 1 }` per element, starting from zero). -/
def bitsToNat (L : List Bool) : Nat :=
  L.foldl (fun acc b => 2 * acc + b.toNat) 0

/-- `BitReader` from `bitstream.go`: source words, total valid bit count,
valid span per word, and the MSB mask of the valid range. -/
structure BitReader where
  data : List Nat
  bits : Nat
  s : Nat
  msb : Nat
  deriving DecidableEq, Repr

/-- `NewBitReader` from `bitstream.go`, for words of width `size`; `none`
models the construction-time panic when `leftPadd + rightPadd >= size`. -/
def NewBitReader (size : Nat) (data : List Nat) (leftPadd rightPadd : Nat) :
    Option BitReader :=
  if leftPadd + rightPadd ≥ size then none
  else some
    { data := data
      bits := data.length * (size - leftPadd - rightPadd)
      s := size - leftPadd - rightPadd
      msb := 2 ^ (size - leftPadd - 1) }

/-- `BitReader.SetBits` from `bitstream.go`: stores `bits` unconditionally. -/
def BitReader.setBits (r : BitReader) (bits : Nat) : BitReader :=
  { r with bits := bits }

/-- The clipped start index `s := min(n*bits, r.bits)` of `BitReader.right`. -/
def BitReader.startIdx (r : BitReader) (bits n : Nat) : Nat :=
  min (n * bits) r.bits

/-- The clipped end index `e := min(s+bits, r.bits)` of `BitReader.right`. -/
def BitReader.endIdx (r : BitReader) (bits n : Nat) : Nat :=
  min (r.startIdx bits n + bits) r.bits

/-- `BitReader.right` from `bitstream.go`: walk the clipped range bit by bit,
shifting the `uint64` accumulator left (mod `2 ^ 64`) and or-ing in set bits,
then left-shift once per missing bit of the requested width. -/
def BitReader.right (r : BitReader) (bits n : Nat) : Nat :=
  let st := r.startIdx bits n
  let e := r.endIdx bits n
  let b := (List.range (e - st)).foldl
    (fun b k =>
      let b := b * 2 % 2 ^ 64
      if r.data.getD ((st + k) / r.s) 0 &&& (r.msb >>> ((st + k) % r.s)) ≠ 0 then
        b ||| 1
      else b) 0
  (List.range (bits - (e - st))).foldl (fun b _ => b * 2 % 2 ^ 64) b

/-- `BitReader.right` with the implicit slice-bounds check of
`r.data[i/r.s]` made explicit: `none` is the out-of-range branch. -/
def BitReader.rightChecked (r : BitReader) (bits n : Nat) : Option Nat :=
  let st := r.startIdx bits n
  let e := r.endIdx bits n
  let b := (List.range (e - st)).foldl
    (fun acc k => acc.bind fun b =>
      if (st + k) / r.s < r.data.length then
        some (let b := b * 2 % 2 ^ 64;
          if r.data.getD ((st + k) / r.s) 0 &&& (r.msb >>> ((st + k) % r.s)) ≠ 0 then
            b ||| 1
          else b)
      else none) (some 0)
  b.map fun b => (List.range (bits - (e - st))).foldl (fun b _ => b * 2 % 2 ^ 64) b

/-- `BitReader.Read8R`: panics (`none`) when `bits > 8`, otherwise converts the
`uint64` result to `uint8`. -/
def BitReader.read8R (r : BitReader) (bits n : Nat) : Option Nat :=
  if bits > 8 then none else some (r.right bits n % 2 ^ 8)

/-- `BitReader.Read16R`: panics (`none`) when `bits > 16`. -/
def BitReader.read16R (r : BitReader) (bits n : Nat) : Option Nat :=
  if bits > 16 then none else some (r.right bits n % 2 ^ 16)

/-- `BitReader.Read32R`: panics (`none`) when `bits > 32`. -/
def BitReader.read32R (r : BitReader) (bits n : Nat) : Option Nat :=
  if bits > 32 then none else some (r.right bits n % 2 ^ 32)

/-- `BitReader.Read64R`: panics (`none`) when `bits > 64`. -/
def BitReader.read64R (r : BitReader) (bits n : Nat) : Option Nat :=
  if bits > 64 then none else some (r.right bits n % 2 ^ 64)

/-- The list of bits the clipped range of a block read visits, via the shared
mask arithmetic; `right` accumulates exactly this list MSB-first. -/
def BitReader.window (r : BitReader) (bits n : Nat) : List Bool :=
  (List.range (r.endIdx bits n - r.startIdx bits n)).map
    fun k => bitAt r.s r.msb r.data (r.startIdx bits n + k)

example :
    (NewBitReader 8 [0b10101100, 0b11100011] 0 0).map
      (fun r => r.right 12 0) = some 0b101011001110 := by decide
example :
    (NewBitReader 8 [0b10101100, 0b11100011] 0 0).map
      (fun r => r.right 4 2) = some 0b1110 := by decide
example :
    (NewBitReader 8 [0b11111111] 0 0).map (fun r => r.right 3 2) =
      some 0b110 := by decide
example :
    (NewBitReader 8 [0b11111111] 1 1).map
      (fun r => (r.setBits 5).right 8 0) = some 0b11111000 := by decide

/-- `BitWriter` from `bitstream.go`: destination words, bits written so far,
valid span, MSB mask, and the two padding counts.  The mutex has no sequential
content and is not part of the state. -/
structure BitWriter where
  data : List Nat
  bits : Nat
  s : Nat
  msb : Nat
  lp : Nat
  rp : Nat
  deriving DecidableEq, Repr

/-- `NewBitWriter` from `bitstream.go`, for words of width `size`; `none`
models the construction-time panic when `leftPadd + rightPadd >= size`. -/
def NewBitWriter (size leftPadd rightPadd : Nat) : Option BitWriter :=
  if leftPadd + rightPadd ≥ size then none
  else some
    { data := []
      bits := 0
      s := size - leftPadd - rightPadd
      msb := 2 ^ (size - leftPadd - 1)
      lp := leftPadd
      rp := rightPadd }

/-- The unexported single-bit `BitWriter.write` from `bitstream.go`: append a
zero word when the target word index is unallocated, or the mask bit in when
the bit is set, increment the bit count. -/
def BitWriter.write (w : BitWriter) (b : Bool) : BitWriter :=
  let idx := w.bits / w.s
  let data := if w.data.length ≤ idx then w.data ++ [0] else w.data
  let data :=
    if b then data.set idx (data.getD idx 0 ||| (w.msb >>> (w.bits % w.s)))
    else data
  { w with data := data, bits := w.bits + 1 }

/-- Iterated `BitWriter.write` over a list of bits. -/
def BitWriter.writeBits (w : BitWriter) (L : List Bool) : BitWriter :=
  L.foldl BitWriter.write w

/-- `BitWriter.Write8` from `bitstream.go`.  The `Bool` component records the
panic on `leftPadd + bits > 8`; a panicking call returns the receiver
untouched (in Go the panic fires before the lock is taken and before any
mutation). -/
def BitWriter.write8 (w : BitWriter) (leftPadd bits : Nat) (v : Nat) :
    BitWriter × Bool :=
  if leftPadd + bits > 8 then (w, true)
  else
    ((List.range bits).foldl
      (fun st k => st.write (decide (v &&& 1 <<< (7 - (leftPadd + k)) ≠ 0))) w,
     false)

/-- `BitWriter.Write16` from `bitstream.go`; panic on `leftPadd + bits > 16`. -/
def BitWriter.write16 (w : BitWriter) (leftPadd bits : Nat) (v : Nat) :
    BitWriter × Bool :=
  if leftPadd + bits > 16 then (w, true)
  else
    ((List.range bits).foldl
      (fun st k => st.write (decide (v &&& 1 <<< (15 - (leftPadd + k)) ≠ 0))) w,
     false)

/-- `BitWriter.Write32` from `bitstream.go`; panic on `leftPadd + bits > 32`. -/
def BitWriter.write32 (w : BitWriter) (leftPadd bits : Nat) (v : Nat) :
    BitWriter × Bool :=
  if leftPadd + bits > 32 then (w, true)
  else
    ((List.range bits).foldl
      (fun st k => st.write (decide (v &&& 1 <<< (31 - (leftPadd + k)) ≠ 0))) w,
     false)

/-- `BitWriter.Write64` from `bitstream.go`; panic on `leftPadd + bits > 64`. -/
def BitWriter.write64 (w : BitWriter) (leftPadd bits : Nat) (v : Nat) :
    BitWriter × Bool :=
  if leftPadd + bits > 64 then (w, true)
  else
    ((List.range bits).foldl
      (fun st k => st.write (decide (v &&& 1 <<< (63 - (leftPadd + k)) ≠ 0))) w,
     false)

/-- `BitWriter.WriteBool` from `bitstream.go`. -/
def BitWriter.writeBool (w : BitWriter) (b : Bool) : BitWriter :=
  w.write b

/-- `BitWriter.Data` from `bitstream.go`: the accumulated word slice. -/
def BitWriter.Data (w : BitWriter) : List Nat :=
  w.data

/-- One exported `BitWriter` operation, for stating invariants over arbitrary
operation sequences. -/
inductive WOp where
  | w8 (leftPadd bits v : Nat)
  | w16 (leftPadd bits v : Nat)
  | w32 (leftPadd bits v : Nat)
  | w64 (leftPadd bits v : Nat)
  | wbool (b : Bool)
  deriving DecidableEq, Repr

/-- Apply one operation; for the block writes this is the state component of
the panicking pair (a panicking call leaves the writer untouched). -/
def BitWriter.applyOp (w : BitWriter) (op : WOp) : BitWriter :=
  match op with
  | .w8 leftPadd bits v => (w.write8 leftPadd bits v).1
  | .w16 leftPadd bits v => (w.write16 leftPadd bits v).1
  | .w32 leftPadd bits v => (w.write32 leftPadd bits v).1
  | .w64 leftPadd bits v => (w.write64 leftPadd bits v).1
  | .wbool b => w.writeBool b

/-- Apply a sequence of operations. -/
def BitWriter.applyOps (w : BitWriter) (ops : List WOp) : BitWriter :=
  ops.foldl BitWriter.applyOp w

/-- The operation's panic guard is satisfied. -/
def WOp.ok : WOp → Prop
  | .w8 leftPadd bits _ => leftPadd + bits ≤ 8
  | .w16 leftPadd bits _ => leftPadd + bits ≤ 16
  | .w32 leftPadd bits _ => leftPadd + bits ≤ 32
  | .w64 leftPadd bits _ => leftPadd + bits ≤ 64
  | .wbool _ => True

/-- The bits a source value contributes under a block write of source width
`W`: bit `W - 1 - (leftPadd + k)` of `v`, for `k < bits`, MSB first. -/
def blockBits (W leftPadd bits v : Nat) : List Bool :=
  (List.range bits).map fun k => decide (v &&& 1 <<< (W - 1 - (leftPadd + k)) ≠ 0)

/-- The bit sequence an operation appends when its guard is satisfied. -/
def WOp.bitsOf : WOp → List Bool
  | .w8 leftPadd bits v => blockBits 8 leftPadd bits v
  | .w16 leftPadd bits v => blockBits 16 leftPadd bits v
  | .w32 leftPadd bits v => blockBits 32 leftPadd bits v
  | .w64 leftPadd bits v => blockBits 64 leftPadd bits v
  | .wbool b => [b]

/-- The number of bits an operation appends when its guard is satisfied. -/
def WOp.nbits : WOp → Nat
  | .w8 _ bits _ => bits
  | .w16 _ bits _ => bits
  | .w32 _ bits _ => bits
  | .w64 _ bits _ => bits
  | .wbool _ => 1

/-- The value a block write stores, right-aligned: the `bits`-bit field of `v`
that starts `leftPadd` bits below the source's MSB. -/
def WOp.value : WOp → Nat
  | .w8 leftPadd bits v => v / 2 ^ (8 - leftPadd - bits) % 2 ^ bits
  | .w16 leftPadd bits v => v / 2 ^ (16 - leftPadd - bits) % 2 ^ bits
  | .w32 leftPadd bits v => v / 2 ^ (32 - leftPadd - bits) % 2 ^ bits
  | .w64 leftPadd bits v => v / 2 ^ (64 - leftPadd - bits) % 2 ^ bits
  | .wbool b => b.toNat

example :
    (NewBitWriter 8 1 0).map (fun w => ((w.write8 0 8 0xFF).1.data,
      (w.write8 0 8 0xFF).1.bits, (w.write8 0 8 0xFF).2)) =
      some ([0b01111111, 0b01000000], 8, false) := by decide
example :
    (NewBitWriter 8 1 2).map (fun w => (w.write8 0 8 0xFF).1.data) =
      some [0b01111100, 0b01110000] := by decide
example :
    (NewBitWriter 8 0 0).map (fun w => (w.write16 0 16 0xFFFF).1.data) =
      some [0xFF, 0xFF] := by decide
example :
    (NewBitWriter 8 1 1).map (fun w => (w.write16 0 16 0xFFFF).1.data) =
      some [0b01111110, 0b01111110, 0b01111000] := by decide
example :
    (NewBitWriter 64 0 0).map (fun w =>
      (((w.write8 0 8 255).1.write8 1 7 255).1.data)) =
      some [(255 * 2 ^ 56) ||| (127 * 2 ^ 49)] := by decide

/-- Invariant tying a writer reachable from `NewBitWriter size lp rp` to the
list `L` of bits written so far: geometry fields are the constructed ones, the
bit count is `|L|`, the buffer holds `ceil(|L| / s)` words, and the bit of the
buffer at logical index `i` (under the shared mask arithmetic) is `L[i]`,
and `false` beyond the end of `L`. -/
structure WGood (size lp rp : Nat) (L : List Bool) (w : BitWriter) : Prop where
  hs : w.s = size - lp - rp
  hmsb : w.msb = 2 ^ (size - lp - 1)
  hbits : w.bits = L.length
  hub : L.length ≤ w.data.length * w.s
  hlb : w.data.length * w.s < L.length + w.s
  hbit : ∀ i, bitAt w.s w.msb w.data i = L.getD i false

/-- Modelled from the spec: the cursor API of the `BitReader` (`Seek`, `Pos`,
`ReadBit`) is exercised by `bitstream_test.go` and documented in the README,
but its implementation is not among the sources.  Following the spec's §3/§4.2
cursor contract, the cursor is a signed bit offset starting at `0`. -/
structure CursorReader where
  base : BitReader
  pos : Int

/-- Modelled from the spec: `seek(pos)` signals invalid-position for `pos < 0`
leaving the cursor unchanged, and otherwise stores `pos` verbatim, even beyond
the logical bit count.  The `Bool` is the error signal. -/
def CursorReader.seek (c : CursorReader) (p : Int) : CursorReader × Bool :=
  if p < 0 then (c, true) else ({ c with pos := p }, false)

/-- Modelled from the spec: `readBit` reports end-of-stream (`false` bit,
cursor unchanged, second `Bool` set) when the cursor is at or beyond the
logical bit count, otherwise returns the addressed bit and advances. -/
def CursorReader.readBit (c : CursorReader) : CursorReader × Bool × Bool :=
  if (c.base.bits : Int) ≤ c.pos then (c, false, true)
  else ({ c with pos := c.pos + 1 },
    bitAt c.base.s c.base.msb c.base.data c.pos.toNat, false)

/-- Modelled from the spec: the `BitWriter` cursor state (`Seek`, `Pos`),
which the spec gives the same seek contract as the reader's. -/
structure CursorWriter where
  base : BitWriter
  pos : Int

/-- Modelled from the spec: writer `seek(pos)`, same contract as the
reader's. -/
def CursorWriter.seek (c : CursorWriter) (p : Int) : CursorWriter × Bool :=
  if p < 0 then (c, true) else ({ c with pos := p }, false)

lemma two_mul_or_one (b : Nat) : 2 * b ||| 1 = 2 * b + 1 := by
  apply Nat.eq_of_testBit_eq
  intro i
  cases i with
  | zero =>
    simp [Nat.testBit_or, Nat.mul_mod_right, Nat.mul_add_mod]
  | succ i =>
    rw [Nat.testBit_or, Nat.testBit_succ, Nat.testBit_succ, Nat.testBit_succ,
      Nat.mul_div_cancel_left b (by norm_num), Nat.mul_add_div (by norm_num)]
    simp [Nat.testBit_lt_two_pow (show (1 : Nat) < 2 ^ (i + 1) from
      Nat.one_lt_two_pow (by omega))]

lemma decide_and_shift_pow (x a k : Nat) (h : k ≤ a) :
    decide (x &&& (2 ^ a >>> k) ≠ 0) = x.testBit (a - k) := by
  rw [Nat.shiftRight_eq_div_pow, Nat.pow_div h (by norm_num), Nat.and_two_pow]
  cases hb : x.testBit (a - k) <;>
    simp [hb, Nat.pos_iff_ne_zero, Nat.two_pow_pos]

lemma bitsToNat_concat (L : List Bool) (b : Bool) :
    bitsToNat (L ++ [b]) = 2 * bitsToNat L + b.toNat := by
  simp [bitsToNat, List.foldl_append]

lemma bitsToNat_foldl (L : List Bool) (acc : Nat) :
    L.foldl (fun a b => 2 * a + b.toNat) acc =
      acc * 2 ^ L.length + bitsToNat L := by
  induction L generalizing acc with
  | nil => simp [bitsToNat]
  | cons b L ih =>
    rw [List.foldl_cons, ih, show bitsToNat (b :: L) = bitsToNat L + b.toNat * 2 ^ L.length by
      rw [bitsToNat, List.foldl_cons]
      show List.foldl (fun a b => 2 * a + b.toNat) (2 * 0 + b.toNat) L = _
      rw [ih]; ring]
    simp [List.length_cons, pow_succ]
    ring

lemma bitsToNat_lt (L : List Bool) : bitsToNat L < 2 ^ L.length := by
  induction L with
  | nil => simp [bitsToNat]
  | cons b L ih =>
    have : bitsToNat (b :: L) = b.toNat * 2 ^ L.length + bitsToNat L := by
      rw [bitsToNat, List.foldl_cons, bitsToNat_foldl]; ring_nf
    rw [this]
    have hb : b.toNat ≤ 1 := Bool.toNat_le b
    calc b.toNat * 2 ^ L.length + bitsToNat L
        < b.toNat * 2 ^ L.length + 2 ^ L.length := by omega
      _ ≤ 1 * 2 ^ L.length + 2 ^ L.length := by
          have := Nat.mul_le_mul_right (2 ^ L.length) hb; omega
      _ ≤ 2 ^ (L.length + 1) := by rw [pow_succ]; omega

lemma map_range_getD (L : List Bool) (d : Bool) :
    (List.range L.length).map (fun k => L.getD k d) = L := by
  apply List.ext_getElem
  · simp
  · intro i h1 h2
    simp only [List.getElem_map, List.getElem_range]
    rw [List.getD_eq_getElem?_getD, List.getElem?_eq_getElem h2]
    rfl

lemma right_core_eq (r : BitReader) (a : Nat) (m : Nat) (hm : m ≤ 64) :
    (List.range m).foldl
      (fun b k =>
        let b := b * 2 % 2 ^ 64
        if r.data.getD ((a + k) / r.s) 0 &&& (r.msb >>> ((a + k) % r.s)) ≠ 0 then
          b ||| 1
        else b) 0
    = bitsToNat ((List.range m).map fun k => bitAt r.s r.msb r.data (a + k)) := by
  induction m with
  | zero => simp [bitsToNat]
  | succ m ih =>
    have hm' : m ≤ 64 := by omega
    have hlt : bitsToNat ((List.range m).map fun k => bitAt r.s r.msb r.data (a + k)) <
        2 ^ m := by
      have := bitsToNat_lt ((List.range m).map fun k => bitAt r.s r.msb r.data (a + k))
      simpa using this
    rw [List.range_succ, List.foldl_append, List.map_append, List.map_cons,
      List.map_nil, List.foldl_cons, List.foldl_nil, ih hm', bitsToNat_concat]
    set B := bitsToNat ((List.range m).map fun k => bitAt r.s r.msb r.data (a + k)) with hB
    have hBsmall : B * 2 < 2 ^ 64 := by
      have h1 : B < 2 ^ 63 := lt_of_lt_of_le hlt (Nat.pow_le_pow_right (by norm_num) (by omega))
      calc B * 2 < 2 ^ 63 * 2 := by omega
        _ = 2 ^ 64 := by norm_num
    have hmod : B * 2 % 2 ^ 64 = B * 2 := Nat.mod_eq_of_lt hBsmall
    show (if r.data.getD ((a + m) / r.s) 0 &&& (r.msb >>> ((a + m) % r.s)) ≠ 0 then
        (B * 2 % 2 ^ 64) ||| 1 else B * 2 % 2 ^ 64) =
      2 * B + (bitAt r.s r.msb r.data (a + m)).toNat
    rw [bitAt]
    by_cases hc : r.data.getD ((a + m) / r.s) 0 &&& (r.msb >>> ((a + m) % r.s)) ≠ 0
    · rw [if_pos hc, hmod, show B * 2 = 2 * B by ring, two_mul_or_one]
      simp only [List.getD_eq_getElem?_getD] at hc
      simp [hc]
    · rw [if_neg hc, hmod]
      simp only [List.getD_eq_getElem?_getD, not_not] at hc
      simp [hc, Nat.mul_comm]

lemma shift_core_eq (v c t : Nat) (hv : v < 2 ^ c) (h : c + t ≤ 64) :
    (List.range t).foldl (fun b _ => b * 2 % 2 ^ 64) v = v * 2 ^ t := by
  induction t with
  | zero => simp
  | succ t ih =>
    have ih' := ih (by omega)
    rw [List.range_succ, List.foldl_append, List.foldl_cons, List.foldl_nil, ih']
    have hlt : v * 2 ^ t < 2 ^ 63 := by
      calc v * 2 ^ t < 2 ^ c * 2 ^ t := by
            exact (Nat.mul_lt_mul_right (Nat.two_pow_pos t)).mpr hv
        _ = 2 ^ (c + t) := by rw [pow_add]
        _ ≤ 2 ^ 63 := Nat.pow_le_pow_right (by norm_num) (by omega)
    have : v * 2 ^ t * 2 < 2 ^ 64 := by
      calc v * 2 ^ t * 2 < 2 ^ 63 * 2 := by omega
        _ = 2 ^ 64 := by norm_num
    rw [Nat.mod_eq_of_lt this, pow_succ]
    ring

lemma endIdx_sub_le (r : BitReader) (bits n : Nat) :
    r.endIdx bits n - r.startIdx bits n ≤ bits := by
  have : r.endIdx bits n ≤ r.startIdx bits n + bits := min_le_left _ _
  omega

lemma window_length (r : BitReader) (bits n : Nat) :
    (r.window bits n).length = r.endIdx bits n - r.startIdx bits n := by
  simp [BitReader.window]

/-- `right` returns the bits of the clipped window, MSB-first, shifted left by
one for each bit of shortfall. -/
lemma right_eq_window (r : BitReader) (bits n : Nat) (hb : bits ≤ 64) :
    r.right bits n =
      bitsToNat (r.window bits n) *
        2 ^ (bits - (r.endIdx bits n - r.startIdx bits n)) := by
  have hle := endIdx_sub_le r bits n
  rw [BitReader.right]
  rw [right_core_eq r (r.startIdx bits n) (r.endIdx bits n - r.startIdx bits n) (by omega)]
  rw [shift_core_eq _ (r.endIdx bits n - r.startIdx bits n) _ _ (by omega)]
  · rfl
  · have := bitsToNat_lt ((List.range (r.endIdx bits n - r.startIdx bits n)).map
      fun k => bitAt r.s r.msb r.data (r.startIdx bits n + k))
    simpa using this

lemma right_lt (r : BitReader) (bits n : Nat) (hb : bits ≤ 64) :
    r.right bits n < 2 ^ bits := by
  rw [right_eq_window r bits n hb]
  have h1 : bitsToNat (r.window bits n) < 2 ^ (r.endIdx bits n - r.startIdx bits n) := by
    have := bitsToNat_lt (r.window bits n)
    rwa [window_length] at this
  have hle := endIdx_sub_le r bits n
  calc bitsToNat (r.window bits n) * 2 ^ (bits - (r.endIdx bits n - r.startIdx bits n))
      < 2 ^ (r.endIdx bits n - r.startIdx bits n) *
          2 ^ (bits - (r.endIdx bits n - r.startIdx bits n)) :=
        (Nat.mul_lt_mul_right (Nat.two_pow_pos _)).mpr h1
    _ = 2 ^ bits := by rw [← pow_add]; congr 1; omega

lemma rightChecked_core (r : BitReader) (st : Nat) (m : Nat)
    (h : ∀ k, k < m → (st + k) / r.s < r.data.length) (acc : Nat) :
    (List.range m).foldl
      (fun acc k => acc.bind fun b =>
        if (st + k) / r.s < r.data.length then
          some (let b := b * 2 % 2 ^ 64;
            if r.data.getD ((st + k) / r.s) 0 &&& (r.msb >>> ((st + k) % r.s)) ≠ 0 then
              b ||| 1
            else b)
        else none) (some acc)
    = some ((List.range m).foldl
        (fun b k =>
          let b := b * 2 % 2 ^ 64
          if r.data.getD ((st + k) / r.s) 0 &&& (r.msb >>> ((st + k) % r.s)) ≠ 0 then
            b ||| 1
          else b) acc) := by
  induction m with
  | zero => simp
  | succ m ih =>
    rw [List.range_succ, List.foldl_append, List.foldl_append, List.foldl_cons,
      List.foldl_cons, List.foldl_nil, List.foldl_nil,
      ih (fun k hk => h k (by omega))]
    rw [Option.some_bind, if_pos (h m (by omega))]

/-- Under the reader invariant `bits ≤ len(data) * s` (with `s > 0`), every
word index a block read touches is in bounds, so the checked read never takes
its error branch and agrees with the total function. -/
lemma rightChecked_eq (r : BitReader) (bits n : Nat) (hs : 0 < r.s)
    (hbits : r.bits ≤ r.data.length * r.s) :
    r.rightChecked bits n = some (r.right bits n) := by
  have hidx : ∀ k, k < r.endIdx bits n - r.startIdx bits n →
      (r.startIdx bits n + k) / r.s < r.data.length := by
    intro k hk
    have h1 : r.startIdx bits n + k < r.endIdx bits n := by omega
    have h2 : r.endIdx bits n ≤ r.bits := min_le_right _ _
    rw [Nat.div_lt_iff_lt_mul hs]
    calc r.startIdx bits n + k < r.endIdx bits n := h1
      _ ≤ r.bits := h2
      _ ≤ r.data.length * r.s := hbits
  rw [BitReader.rightChecked, BitReader.right]
  rw [rightChecked_core r (r.startIdx bits n) (r.endIdx bits n - r.startIdx bits n) hidx 0]
  rfl

lemma getD_append_zero (l : List Nat) (j : Nat) : (l ++ [0]).getD j 0 = l.getD j 0 := by
  rcases Nat.lt_or_ge j l.length with h | h
  · exact List.getD_append _ _ _ _ h
  · rw [List.getD_append_right _ _ _ _ h, List.getD_eq_default _ _ h]
    rcases Nat.eq_zero_or_pos (j - l.length) with h1 | h1
    · simp [h1]
    · exact List.getD_eq_default _ _
        (by simp only [List.length_cons, List.length_nil]; omega)

lemma getD_set_self (l : List Nat) (i x : Nat) (h : i < l.length) :
    (l.set i x).getD i 0 = x := by
  rw [List.getD_eq_getElem?_getD, List.getElem?_set_self h]
  rfl

lemma getD_set_ne (l : List Nat) (i j x : Nat) (h : i ≠ j) :
    (l.set i x).getD j 0 = l.getD j 0 := by
  rw [List.getD_eq_getElem?_getD, List.getD_eq_getElem?_getD, List.getElem?_set_ne h]

lemma getD_concat {α : Type} (L : List α) (x d : α) (i : Nat) :
    (L ++ [x]).getD i d = if i = L.length then x else L.getD i d := by
  rcases Nat.lt_trichotomy i L.length with h | h | h
  · rw [List.getD_append _ _ _ _ h, if_neg (by omega)]
  · rw [if_pos h, h, List.getD_append_right _ _ _ _ (le_refl _)]
    simp
  · rw [if_neg (by omega), List.getD_append_right _ _ _ _ (by omega)]
    rw [List.getD_eq_default _ _
        (show ([x] : List α).length ≤ i - L.length by
          simp only [List.length_cons, List.length_nil]; omega),
      List.getD_eq_default _ _ (show L.length ≤ i by omega)]

lemma write_s (w : BitWriter) (b : Bool) : (w.write b).s = w.s := rfl

lemma write_msb (w : BitWriter) (b : Bool) : (w.write b).msb = w.msb := rfl

lemma write_bits (w : BitWriter) (b : Bool) : (w.write b).bits = w.bits + 1 := rfl

lemma write_data_grow (w : BitWriter) (b : Bool) (hc : w.data.length ≤ w.bits / w.s) :
    (w.write b).data = (if b then (w.data ++ [0]).set (w.bits / w.s)
      ((w.data ++ [0]).getD (w.bits / w.s) 0 ||| (w.msb >>> (w.bits % w.s)))
      else w.data ++ [0]) := by
  simp only [BitWriter.write, if_pos hc]

lemma write_data_nogrow (w : BitWriter) (b : Bool) (hc : ¬ w.data.length ≤ w.bits / w.s) :
    (w.write b).data = (if b then w.data.set (w.bits / w.s)
      (w.data.getD (w.bits / w.s) 0 ||| (w.msb >>> (w.bits % w.s)))
      else w.data) := by
  simp only [BitWriter.write, if_neg hc]

/-- The buffer grows by exactly one word precisely when the write targets an
unallocated word index, and never shrinks. -/
lemma write_data_length (w : BitWriter) (b : Bool) :
    (w.write b).data.length =
      if w.data.length ≤ w.bits / w.s then w.data.length + 1 else w.data.length := by
  by_cases hc : w.data.length ≤ w.bits / w.s
  · rw [write_data_grow w b hc, if_pos hc]
    cases b <;> simp
  · rw [write_data_nogrow w b hc, if_neg hc]
    cases b <;> simp

lemma write_getD_ne (w : BitWriter) (b : Bool) (j : Nat) (hj : j ≠ w.bits / w.s) :
    (w.write b).data.getD j 0 = w.data.getD j 0 := by
  by_cases hc : w.data.length ≤ w.bits / w.s
  · rw [write_data_grow w b hc]
    cases b
    · exact getD_append_zero _ _
    · show ((w.data ++ [0]).set (w.bits / w.s)
          ((w.data ++ [0]).getD (w.bits / w.s) 0 ||| (w.msb >>> (w.bits % w.s)))).getD j 0 =
        w.data.getD j 0
      rw [getD_set_ne _ _ _ _ (fun h => hj h.symm)]
      exact getD_append_zero _ _
  · rw [write_data_nogrow w b hc]
    cases b
    · rfl
    · show (w.data.set (w.bits / w.s)
          (w.data.getD (w.bits / w.s) 0 ||| (w.msb >>> (w.bits % w.s)))).getD j 0 =
        w.data.getD j 0
      exact getD_set_ne _ _ _ _ (fun h => hj h.symm)

lemma write_getD_self (w : BitWriter) (hle : w.bits / w.s ≤ w.data.length) :
    (w.write true).data.getD (w.bits / w.s) 0 =
      w.data.getD (w.bits / w.s) 0 ||| (w.msb >>> (w.bits % w.s)) := by
  by_cases hc : w.data.length ≤ w.bits / w.s
  · have heq : w.bits / w.s = w.data.length := le_antisymm hle hc
    rw [write_data_grow w true hc]
    show ((w.data ++ [0]).set (w.bits / w.s)
        ((w.data ++ [0]).getD (w.bits / w.s) 0 ||| (w.msb >>> (w.bits % w.s)))).getD
          (w.bits / w.s) 0 = _
    rw [getD_set_self _ _ _ (by simp [heq]), getD_append_zero]
  · have hlt : w.bits / w.s < w.data.length := by omega
    rw [write_data_nogrow w true hc]
    show (w.data.set (w.bits / w.s)
        (w.data.getD (w.bits / w.s) 0 ||| (w.msb >>> (w.bits % w.s)))).getD
          (w.bits / w.s) 0 = _
    rw [getD_set_self _ _ _ hlt]

lemma wgood_init {size lp rp : Nat} {w : BitWriter}
    (h : NewBitWriter size lp rp = some w) (hpad : lp + rp < size) :
    WGood size lp rp [] w := by
  rw [NewBitWriter, if_neg (by omega)] at h
  have hw := Option.some.inj h
  subst hw
  refine ⟨rfl, rfl, rfl, by simp, by simp; omega, ?_⟩
  intro i
  simp [bitAt]

lemma write_false_getD (w : BitWriter) (j : Nat) :
    (w.write false).data.getD j 0 = w.data.getD j 0 := by
  by_cases hc : w.data.length ≤ w.bits / w.s
  · rw [write_data_grow w false hc]
    exact getD_append_zero _ _
  · rw [write_data_nogrow w false hc]
    rfl

lemma wgood_write {size lp rp : Nat} (hpad : lp + rp < size) {L : List Bool}
    {w : BitWriter} (h : WGood size lp rp L w) (b : Bool) :
    WGood size lp rp (L ++ [b]) (w.write b) := by
  obtain ⟨hs, hmsb, hbits, hub, hlb, hbit⟩ := h
  have hspos : 0 < w.s := by omega
  have hsle : w.s ≤ size - lp := by omega
  have hidx_le : w.bits / w.s ≤ w.data.length := by
    rw [hbits]
    calc L.length / w.s ≤ w.data.length * w.s / w.s := Nat.div_le_div_right hub
      _ = w.data.length := Nat.mul_div_cancel _ hspos
  have hmod_lt : w.bits % w.s < w.s := Nat.mod_lt _ hspos
  have hmod_le : w.bits % w.s ≤ size - lp - 1 := by omega
  constructor
  · exact hs
  · exact hmsb
  · rw [write_bits, hbits]; simp
  · -- upper bound on the new bit count
    rw [write_s, write_data_length]
    by_cases hc : w.data.length ≤ w.bits / w.s
    · rw [if_pos hc]
      have h1 : w.bits / w.s = w.data.length := le_antisymm hidx_le hc
      have h2 : w.data.length * w.s ≤ w.bits := by
        rw [← h1]
        exact Nat.div_mul_le_self _ _
      rw [hbits] at h2
      have h4 : (w.data.length + 1) * w.s = w.data.length * w.s + w.s := by ring
      simp only [List.length_append, List.length_cons, List.length_nil]
      omega
    · rw [if_neg hc]
      have h1 : w.bits / w.s < w.data.length := by omega
      rw [hbits] at h1
      have h2 : L.length < w.data.length * w.s := (Nat.div_lt_iff_lt_mul hspos).mp h1
      simp only [List.length_append, List.length_cons, List.length_nil]
      omega
  · -- lower bound: no more than one word of slack
    rw [write_s, write_data_length]
    by_cases hc : w.data.length ≤ w.bits / w.s
    · rw [if_pos hc]
      have h1 : w.bits / w.s = w.data.length := le_antisymm hidx_le hc
      have h2 : w.data.length * w.s ≤ w.bits := by
        rw [← h1]
        exact Nat.div_mul_le_self _ _
      rw [hbits] at h2
      have h4 : (w.data.length + 1) * w.s = w.data.length * w.s + w.s := by ring
      simp only [List.length_append, List.length_cons, List.length_nil]
      omega
    · rw [if_neg hc]
      simp only [List.length_append, List.length_cons, List.length_nil]
      omega
  · -- bit contents
    intro i
    rw [write_s, write_msb]
    by_cases hij : i / w.s = w.bits / w.s
    · by_cases hiN : i = L.length
      · -- exactly the freshly written position
        cases b
        · rw [bitAt, write_false_getD]
          have hb2 := hbit i
          rw [bitAt] at hb2
          rw [hb2, getD_concat, if_pos hiN, hiN,
            List.getD_eq_default _ _ (le_refl _)]
        · rw [bitAt, hij, write_getD_self w hidx_le]
          rw [show i % w.s = w.bits % w.s from by rw [hiN, ← hbits]]
          rw [hmsb, decide_and_shift_pow _ _ _ hmod_le, Nat.testBit_or,
            Nat.shiftRight_eq_div_pow, Nat.pow_div hmod_le (by norm_num),
            Nat.testBit_two_pow]
          simp [getD_concat, hiN]
      · -- same word, different offset inside it
        have hioff_lt : i % w.s < w.s := Nat.mod_lt _ hspos
        have hioff_le : i % w.s ≤ size - lp - 1 := by omega
        have hoff : i % w.s ≠ w.bits % w.s := by
          intro hmod
          apply hiN
          calc i = w.s * (i / w.s) + i % w.s := (Nat.div_add_mod i w.s).symm
            _ = w.s * (w.bits / w.s) + w.bits % w.s := by rw [hij, hmod]
            _ = w.bits := Nat.div_add_mod w.bits w.s
            _ = L.length := hbits
        cases b
        · rw [bitAt, write_false_getD]
          have hb2 := hbit i
          rw [bitAt] at hb2
          rw [hb2, getD_concat, if_neg hiN]
        · rw [bitAt, hij, write_getD_self w hidx_le]
          rw [hmsb, decide_and_shift_pow _ _ _ hioff_le, Nat.testBit_or,
            Nat.shiftRight_eq_div_pow, Nat.pow_div hmod_le (by norm_num),
            Nat.testBit_two_pow]
          have hne : size - lp - 1 - w.bits % w.s ≠ size - lp - 1 - i % w.s := by
            omega
          rw [decide_eq_false hne, Bool.or_false]
          have hb2 := hbit i
          rw [bitAt, hmsb, decide_and_shift_pow _ _ _ hioff_le, hij] at hb2
          rw [hb2, getD_concat, if_neg hiN]
    · -- an untouched word
      have hiN : i ≠ L.length := by
        intro h1
        apply hij
        rw [h1, hbits]
      rw [bitAt, write_getD_ne w b _ hij]
      have hb2 := hbit i
      rw [bitAt] at hb2
      rw [hb2, getD_concat, if_neg hiN]

lemma wgood_writeBits {size lp rp : Nat} (hpad : lp + rp < size) {L : List Bool}
    {w : BitWriter} (h : WGood size lp rp L w) (M : List Bool) :
    WGood size lp rp (L ++ M) (w.writeBits M) := by
  induction M generalizing L w with
  | nil => simpa [BitWriter.writeBits] using h
  | cons b M ih =>
    have h1 := ih (wgood_write hpad h b)
    rw [show L ++ b :: M = (L ++ [b]) ++ M by simp]
    exact h1

/-- A block write whose guard holds performs exactly the single-bit writes of
its source bit list. -/
lemma applyOp_ok {w : BitWriter} {op : WOp} (hok : op.ok) :
    w.applyOp op = w.writeBits op.bitsOf := by
  cases op with
  | w8 leftPadd bits v =>
    rw [WOp.ok] at hok
    rw [BitWriter.applyOp, BitWriter.write8, if_neg (by omega), WOp.bitsOf,
      blockBits, BitWriter.writeBits, List.foldl_map]
  | w16 leftPadd bits v =>
    rw [WOp.ok] at hok
    rw [BitWriter.applyOp, BitWriter.write16, if_neg (by omega), WOp.bitsOf,
      blockBits, BitWriter.writeBits, List.foldl_map]
  | w32 leftPadd bits v =>
    rw [WOp.ok] at hok
    rw [BitWriter.applyOp, BitWriter.write32, if_neg (by omega), WOp.bitsOf,
      blockBits, BitWriter.writeBits, List.foldl_map]
  | w64 leftPadd bits v =>
    rw [WOp.ok] at hok
    rw [BitWriter.applyOp, BitWriter.write64, if_neg (by omega), WOp.bitsOf,
      blockBits, BitWriter.writeBits, List.foldl_map]
  | wbool b =>
    rw [BitWriter.applyOp, BitWriter.writeBool, WOp.bitsOf, BitWriter.writeBits,
      List.foldl_cons, List.foldl_nil]

/-- A block write whose guard fails leaves the writer untouched. -/
lemma applyOp_panic {w : BitWriter} {op : WOp} (hbad : ¬ op.ok) :
    w.applyOp op = w := by
  cases op with
  | w8 leftPadd bits v =>
    rw [WOp.ok] at hbad
    rw [BitWriter.applyOp, BitWriter.write8, if_pos (by omega)]
  | w16 leftPadd bits v =>
    rw [WOp.ok] at hbad
    rw [BitWriter.applyOp, BitWriter.write16, if_pos (by omega)]
  | w32 leftPadd bits v =>
    rw [WOp.ok] at hbad
    rw [BitWriter.applyOp, BitWriter.write32, if_pos (by omega)]
  | w64 leftPadd bits v =>
    rw [WOp.ok] at hbad
    rw [BitWriter.applyOp, BitWriter.write64, if_pos (by omega)]
  | wbool b => exact absurd trivial hbad

lemma wgood_applyOp {size lp rp : Nat} (hpad : lp + rp < size) {L : List Bool}
    {w : BitWriter} (h : WGood size lp rp L w) (op : WOp) :
    ∃ M, WGood size lp rp (L ++ M) (w.applyOp op) := by
  by_cases hok : op.ok
  · exact ⟨op.bitsOf, by rw [applyOp_ok hok]; exact wgood_writeBits hpad h _⟩
  · exact ⟨[], by rw [applyOp_panic hok]; simpa using h⟩

lemma wgood_applyOps {size lp rp : Nat} (hpad : lp + rp < size) {L : List Bool}
    {w : BitWriter} (h : WGood size lp rp L w) (ops : List WOp) :
    ∃ M, WGood size lp rp (L ++ M) (w.applyOps ops) := by
  induction ops generalizing L w with
  | nil => exact ⟨[], by simpa [BitWriter.applyOps] using h⟩
  | cons op ops ih =>
    obtain ⟨M1, h1⟩ := wgood_applyOp hpad h op
    obtain ⟨M2, h2⟩ := ih h1
    exact ⟨M1 ++ M2, by rw [BitWriter.applyOps, List.foldl_cons, ← List.append_assoc]; exact h2⟩

/-- With every guard satisfied, applying an operation sequence writes exactly
the concatenation of the operations' bit lists. -/
lemma wgood_applyOps_ok {size lp rp : Nat} (hpad : lp + rp < size) {L : List Bool}
    {w : BitWriter} (h : WGood size lp rp L w) (ops : List WOp)
    (hok : ∀ o ∈ ops, o.ok) :
    WGood size lp rp (L ++ (ops.map WOp.bitsOf).flatten) (w.applyOps ops) := by
  induction ops generalizing L w with
  | nil => simpa [BitWriter.applyOps] using h
  | cons op ops ih =>
    have h1 : WGood size lp rp (L ++ op.bitsOf) (w.applyOp op) := by
      rw [applyOp_ok (hok op (by simp))]
      exact wgood_writeBits hpad h _
    have h2 := ih h1 (fun o ho => hok o (by simp [ho]))
    rw [BitWriter.applyOps, List.foldl_cons, List.map_cons, List.flatten_cons,
      ← List.append_assoc]
    exact h2

lemma decide_and_one_shift (v p : Nat) :
    decide (v &&& 1 <<< p ≠ 0) = v.testBit p := by
  rw [Nat.one_shiftLeft, Nat.and_two_pow]
  cases hb : v.testBit p <;>
    simp [hb, Nat.pos_iff_ne_zero, Nat.two_pow_pos]

lemma mod_two_pow_succ (x b : Nat) :
    x % 2 ^ (b + 1) = 2 * (x / 2 % 2 ^ b) + x % 2 := by
  have hm : 2 * 2 ^ b = 2 ^ (b + 1) := by rw [pow_succ]; ring
  have h2 : 2 * (x / 2) % 2 ^ (b + 1) = 2 * (x / 2 % 2 ^ b) := by
    rw [← hm, Nat.mul_mod_mul_left]
  have h3 : x % 2 < 2 := Nat.mod_lt _ (by norm_num)
  have h4 : x / 2 % 2 ^ b < 2 ^ b := Nat.mod_lt _ (Nat.two_pow_pos b)
  have h5 : (2 : Nat) ≤ 2 ^ (b + 1) := by
    have := Nat.two_pow_pos b; omega
  conv_lhs => rw [← Nat.div_add_mod x 2]
  rw [Nat.add_mod, h2, Nat.mod_eq_of_lt (show x % 2 < 2 ^ (b + 1) by omega),
    Nat.mod_eq_of_lt (show 2 * (x / 2 % 2 ^ b) + x % 2 < 2 ^ (b + 1) by omega)]

/-- The MSB-first accumulation of the source bits a block write selects is the
right-aligned `bits`-wide field of `v` starting `leftPadd` below the MSB. -/
lemma bitsToNat_blockBits (W leftPadd bits v : Nat) (h : leftPadd + bits ≤ W) :
    bitsToNat (blockBits W leftPadd bits v) =
      v / 2 ^ (W - leftPadd - bits) % 2 ^ bits := by
  induction bits with
  | zero => simp [blockBits, bitsToNat, Nat.mod_one]
  | succ b ih =>
    rw [blockBits, List.range_succ, List.map_append, List.map_cons, List.map_nil]
    rw [show (List.range b).map
        (fun k => decide (v &&& 1 <<< (W - 1 - (leftPadd + k)) ≠ 0)) =
        blockBits W leftPadd b v from rfl]
    rw [bitsToNat_concat, ih (by omega), decide_and_one_shift,
      Nat.testBit_to_div_mod]
    have hp : W - leftPadd - b = (W - leftPadd - (b + 1)) + 1 := by omega
    have hq : W - 1 - (leftPadd + b) = W - leftPadd - (b + 1) := by omega
    rw [hp, hq, pow_succ, ← Nat.div_div_eq_div_mul,
      mod_two_pow_succ (v / 2 ^ (W - leftPadd - (b + 1))) b]
    rcases Nat.mod_two_eq_zero_or_one (v / 2 ^ (W - leftPadd - (b + 1))) with h0 | h0 <;>
      rw [h0] <;> simp

/-- Successful operations append `nbits` bits. -/
lemma bitsOf_length (op : WOp) : op.bitsOf.length = op.nbits := by
  cases op <;> simp [WOp.bitsOf, WOp.nbits, blockBits]

/-- The accumulated value of an operation's bit list is the field of the
source value the operation selects. -/
lemma bitsToNat_bitsOf {op : WOp} (hok : op.ok) :
    bitsToNat op.bitsOf = op.value := by
  cases op with
  | w8 leftPadd bits v =>
    exact bitsToNat_blockBits 8 leftPadd bits v hok
  | w16 leftPadd bits v =>
    exact bitsToNat_blockBits 16 leftPadd bits v hok
  | w32 leftPadd bits v =>
    exact bitsToNat_blockBits 32 leftPadd bits v hok
  | w64 leftPadd bits v =>
    exact bitsToNat_blockBits 64 leftPadd bits v hok
  | wbool b =>
    simp [WOp.bitsOf, WOp.value, bitsToNat]

lemma getD_middle {A B C : List Bool} {k : Nat} (hk : k < B.length) :
    (A ++ (B ++ C)).getD (A.length + k) false = B.getD k false := by
  rw [List.getD_append_right _ _ _ _ (Nat.le_add_right _ _),
    Nat.add_sub_cancel_left, List.getD_append _ _ _ _ hk]

lemma nbits_le_64 {op : WOp} (hok : op.ok) : op.nbits ≤ 64 := by
  cases op with
  | w8 leftPadd bits v => rw [WOp.ok] at hok; rw [WOp.nbits]; omega
  | w16 leftPadd bits v => rw [WOp.ok] at hok; rw [WOp.nbits]; omega
  | w32 leftPadd bits v => rw [WOp.ok] at hok; rw [WOp.nbits]; omega
  | w64 leftPadd bits v => rw [WOp.ok] at hok; rw [WOp.nbits]; omega
  | wbool b => rw [WOp.nbits]; omega

lemma newBitWriter_pad {size lp rp : Nat} {w : BitWriter}
    (h : NewBitWriter size lp rp = some w) : lp + rp < size := by
  by_contra hc
  rw [NewBitWriter, if_pos (by omega)] at h
  exact Option.noConfusion h

lemma write_length_mono (w : BitWriter) (b : Bool) :
    w.data.length ≤ (w.write b).data.length := by
  rw [write_data_length]
  split <;> omega

lemma writeBits_length_mono (w : BitWriter) (M : List Bool) :
    w.data.length ≤ (w.writeBits M).data.length := by
  induction M generalizing w with
  | nil => exact le_refl _
  | cons b M ih =>
    calc w.data.length ≤ (w.write b).data.length := write_length_mono w b
      _ ≤ ((w.write b).writeBits M).data.length := ih _

lemma applyOp_length_mono (w : BitWriter) (op : WOp) :
    w.data.length ≤ (w.applyOp op).data.length := by
  by_cases hok : op.ok
  · rw [applyOp_ok hok]
    exact writeBits_length_mono _ _
  · rw [applyOp_panic hok]

lemma applyOps_length_mono (w : BitWriter) (ops : List WOp) :
    w.data.length ≤ (w.applyOps ops).data.length := by
  induction ops generalizing w with
  | nil => exact le_refl _
  | cons op ops ih =>
    calc w.data.length ≤ (w.applyOp op).data.length := applyOp_length_mono w op
      _ ≤ ((w.applyOp op).applyOps ops).data.length := ih _

/-- C1: Round trip.  For any word width in {8,16,32,64} and padding with
`lp + rp < W`, after any sequence of guarded block writes, re-reading over the
writer's exported buffer with the same padding, at the block position that
addresses exactly the bit range one of the writes produced, returns exactly
the field value that write stored. -/
theorem c1_round_trip (size lp rp : Nat)
    (_hW : size = 8 ∨ size = 16 ∨ size = 32 ∨ size = 64)
    (hpad : lp + rp < size)
    (w0 : BitWriter) (h0 : NewBitWriter size lp rp = some w0)
    (P : List WOp) (op : WOp) (S : List WOp)
    (hP : ∀ o ∈ P, o.ok) (hop : op.ok) (hS : ∀ o ∈ S, o.ok)
    (r : BitReader)
    (hr : NewBitReader size (w0.applyOps (P ++ op :: S)).Data lp rp = some r)
    (n : Nat)
    (hn : ((P.map WOp.bitsOf).flatten).length = n * op.nbits) :
    r.right op.nbits n = op.value := by
  have hg0 := wgood_init h0 hpad
  have hgood := wgood_applyOps_ok hpad hg0 (P ++ op :: S) (by
    intro o ho
    rcases List.mem_append.mp ho with h1 | h1
    · exact hP o h1
    · rcases List.mem_cons.mp h1 with h2 | h2
      · rw [h2]; exact hop
      · exact hS o h2)
  rw [List.nil_append, List.map_append, List.flatten_append, List.map_cons,
    List.flatten_cons] at hgood
  set A := (P.map WOp.bitsOf).flatten with hA
  set B := op.bitsOf with hB
  set C := (S.map WOp.bitsOf).flatten with hC
  set w := w0.applyOps (P ++ op :: S) with hw
  obtain ⟨hs, hmsb, hbits, hub, hlb, hbit⟩ := hgood
  rw [NewBitReader, if_neg (by omega)] at hr
  have hr' := Option.some.inj hr
  subst hr'
  have hBlen : B.length = op.nbits := bitsOf_length op
  have hLlen : (A ++ (B ++ C)).length = A.length + B.length + C.length := by
    simp [List.length_append]
    omega
  have hDataEq : BitWriter.Data w = w.data := rfl
  have hcap : A.length + op.nbits ≤ (BitWriter.Data w).length * (size - lp - rp) := by
    have h2 := hub
    rw [hLlen, hs] at h2
    rw [hDataEq]
    omega
  have hb64 : op.nbits ≤ 64 := nbits_le_64 hop
  have hstart : BitReader.startIdx
      ⟨BitWriter.Data w, (BitWriter.Data w).length * (size - lp - rp),
        size - lp - rp, 2 ^ (size - lp - 1)⟩ op.nbits n = A.length := by
    show min (n * op.nbits) ((BitWriter.Data w).length * (size - lp - rp)) = A.length
    rw [← hn]
    exact min_eq_left (by omega)
  have hend : BitReader.endIdx
      ⟨BitWriter.Data w, (BitWriter.Data w).length * (size - lp - rp),
        size - lp - rp, 2 ^ (size - lp - 1)⟩ op.nbits n = A.length + op.nbits := by
    rw [BitReader.endIdx, hstart]
    show min (A.length + op.nbits) ((BitWriter.Data w).length * (size - lp - rp)) =
      A.length + op.nbits
    exact min_eq_left (by omega)
  have hwin : BitReader.window
      ⟨BitWriter.Data w, (BitWriter.Data w).length * (size - lp - rp),
        size - lp - rp, 2 ^ (size - lp - 1)⟩ op.nbits n = B := by
    rw [BitReader.window, hstart, hend]
    rw [show A.length + op.nbits - A.length = op.nbits by omega, ← hBlen]
    have hmapeq : ∀ k ∈ List.range B.length,
        bitAt (size - lp - rp) (2 ^ (size - lp - 1)) (BitWriter.Data w)
          (A.length + k) = B.getD k false := by
      intro k hk
      have hk' : k < B.length := List.mem_range.mp hk
      have := hbit (A.length + k)
      rw [hs, hmsb] at this
      rw [BitWriter.Data]
      rw [this, getD_middle hk']
    rw [List.map_congr_left hmapeq, map_range_getD]
  have := right_eq_window
    ⟨BitWriter.Data w, (BitWriter.Data w).length * (size - lp - rp),
      size - lp - rp, 2 ^ (size - lp - 1)⟩ op.nbits n hb64
  rw [this, hwin, hend, hstart]
  rw [show A.length + op.nbits - A.length = op.nbits by omega]
  rw [Nat.sub_self, pow_zero, Nat.mul_one]
  exact bitsToNat_bitsOf hop

/-- C1 witness: one 8-bit write of `0xAC`, read back at block 0. -/
theorem c1_round_trip_witness :
    BitReader.right ⟨[172], 8, 8, 128⟩ (WOp.nbits (.w8 0 8 172)) 0 =
      WOp.value (.w8 0 8 172) :=
  c1_round_trip 8 0 0 (Or.inl rfl) (by omega) ⟨[], 0, 8, 128, 0, 0⟩ (by decide)
    [] (.w8 0 8 172) [] (by simp) (by show (0 : Nat) + 8 ≤ 8; omega) (by simp)
    ⟨[172], 8, 8, 128⟩ (by decide) 0 (by decide)

/-- C2 counterexample: over one 8-bit word with no padding (capacity
`len(data) * s = 8` bits), `SetBits 100` sets the logical bit count to `100`,
exceeding the physical capacity — `SetBits` does not clamp and can grow the
readable range. -/
theorem c2_counterexample :
    (NewBitReader 8 [255] 0 0).map
      (fun r => ((r.setBits 100).bits, r.data.length * r.s)) = some (100, 8) ∧
    ¬ (100 ≤ 8) := ⟨by decide, by omega⟩

/-- C2 (amended): `SetBits n` sets the logical bit count to exactly `n`,
with no clamping — it can shrink or grow the readable range, and a value
larger than `len(data) * s` escapes the physical capacity; only construction
establishes `bits = len(data) * s`. -/
theorem c2_setBits_exact :
    (∀ (r : BitReader) (n : Nat), (r.setBits n).bits = n) ∧
    (∀ (size : Nat) (data : List Nat) (leftPadd rightPadd : Nat) (r : BitReader),
      NewBitReader size data leftPadd rightPadd = some r →
      r.bits = r.data.length * r.s) := by
  constructor
  · intro r n
    rfl
  · intro size data leftPadd rightPadd r h
    rw [NewBitReader] at h
    split at h
    · exact Option.noConfusion h
    · have h1 := Option.some.inj h
      rw [← h1]

/-- C2 witness: a freshly constructed reader's bit count is its capacity. -/
theorem c2_setBits_exact_witness :
    (⟨[255], 8, 8, 128⟩ : BitReader).bits =
      (⟨[255], 8, 8, 128⟩ : BitReader).data.length * (⟨[255], 8, 8, 128⟩ : BitReader).s :=
  c2_setBits_exact.2 8 [255] 0 0 ⟨[255], 8, 8, 128⟩ (by decide)

/-- C3 counterexample: the claim's "no error or panic occurs" fails for
readers whose logical bit count was raised past physical capacity, which
`SetBits` permits (corrected C2).  Over one byte with `SetBits 100`, the
8-bit block read at index 12 has a truncated range (`100 < 12*8 + 8`), yet
it indexes word `96 / 8 = 12` of a one-word slice: the checked embedding of
`right` takes its out-of-bounds branch (`none`), which in Go is an
index-out-of-range panic. -/
theorem c3_counterexample :
    (NewBitReader 8 [255] 0 0).map (fun r =>
      ((r.setBits 100).bits, (r.setBits 100).rightChecked 8 12)) =
      some (100, none) ∧ 100 < 12 * 8 + 8 :=
  ⟨by decide, by omega⟩

/-- C3 (amended): Zero-fill on short block read, for every reader whose
logical bit count is within physical capacity (`bits ≤ len(data) * s` with
`s > 0`, as construction establishes and any `SetBits` that does not raise
the count past capacity preserves).  For any block read of `nbits ≤ 64` bits
whose range is truncated by the logical bit count, no error or panic occurs
(the bounds-checked read agrees with the total one), the result is the
available bits of the clipped window followed by zero bits on the right (one
left shift per missing bit), it is exactly `nbits` bits wide, and the
width-guarded wrappers return it without error whenever `nbits` fits their
destination width. -/
theorem c3_zero_fill (r : BitReader) (nbits n : Nat) (hb : nbits ≤ 64)
    (hs : 0 < r.s) (hcap : r.bits ≤ r.data.length * r.s)
    (_htrunc : r.bits < n * nbits + nbits) :
    r.rightChecked nbits n = some (r.right nbits n) ∧
    r.right nbits n =
      bitsToNat (r.window nbits n) *
        2 ^ (nbits - (r.endIdx nbits n - r.startIdx nbits n)) ∧
    r.right nbits n < 2 ^ nbits ∧
    (nbits ≤ 8 → r.read8R nbits n = some (r.right nbits n)) ∧
    (nbits ≤ 16 → r.read16R nbits n = some (r.right nbits n)) ∧
    (nbits ≤ 32 → r.read32R nbits n = some (r.right nbits n)) ∧
    (nbits ≤ 64 → r.read64R nbits n = some (r.right nbits n)) := by
  have h1 := right_eq_window r nbits n hb
  have h2 := right_lt r nbits n hb
  refine ⟨rightChecked_eq r nbits n hs hcap, h1, h2, ?_, ?_, ?_, ?_⟩
  · intro h8
    rw [BitReader.read8R, if_neg (by omega),
      Nat.mod_eq_of_lt (lt_of_lt_of_le h2 (Nat.pow_le_pow_right (by norm_num) h8))]
  · intro h16
    rw [BitReader.read16R, if_neg (by omega),
      Nat.mod_eq_of_lt (lt_of_lt_of_le h2 (Nat.pow_le_pow_right (by norm_num) h16))]
  · intro h32
    rw [BitReader.read32R, if_neg (by omega),
      Nat.mod_eq_of_lt (lt_of_lt_of_le h2 (Nat.pow_le_pow_right (by norm_num) h32))]
  · intro h64
    rw [BitReader.read64R, if_neg (by omega),
      Nat.mod_eq_of_lt (lt_of_lt_of_le h2 (Nat.pow_le_pow_right (by norm_num) h64))]

/-- C3 witness: reading 3 bits at block 2 of one full byte (range `[6,8)`
truncated to 2 available bits; the reader is within capacity, `8 ≤ 1 * 8`). -/
theorem c3_zero_fill_witness :
    BitReader.rightChecked ⟨[255], 8, 8, 128⟩ 3 2 =
      some (BitReader.right ⟨[255], 8, 8, 128⟩ 3 2) ∧
    BitReader.right ⟨[255], 8, 8, 128⟩ 3 2 =
      bitsToNat (BitReader.window ⟨[255], 8, 8, 128⟩ 3 2) *
        2 ^ (3 - (BitReader.endIdx ⟨[255], 8, 8, 128⟩ 3 2 -
          BitReader.startIdx ⟨[255], 8, 8, 128⟩ 3 2)) ∧
    BitReader.right ⟨[255], 8, 8, 128⟩ 3 2 < 2 ^ 3 :=
  ⟨(c3_zero_fill ⟨[255], 8, 8, 128⟩ 3 2 (by omega) (by decide) (by decide)
      (by decide)).1,
   (c3_zero_fill ⟨[255], 8, 8, 128⟩ 3 2 (by omega) (by decide) (by decide)
      (by decide)).2.1,
   (c3_zero_fill ⟨[255], 8, 8, 128⟩ 3 2 (by omega) (by decide) (by decide)
      (by decide)).2.2.1⟩

/-- C4: the logical bit count is the authority for the buffer length.  After
any operation sequence from a fresh writer, `len(data) = ceil(bits / s)`;
every bit position at or beyond the logical count reads as zero
(zero-initialized growth); a single-bit write appends exactly one word
precisely when it targets an unallocated word index; and the buffer length
never shrinks under further operations. -/
theorem c4_buffer_length (size lp rp : Nat) (w0 : BitWriter)
    (h0 : NewBitWriter size lp rp = some w0) (ops : List WOp) :
    ((w0.applyOps ops).data.length =
      ((w0.applyOps ops).bits + (w0.applyOps ops).s - 1) / (w0.applyOps ops).s) ∧
    (∀ i, (w0.applyOps ops).bits ≤ i →
      bitAt (w0.applyOps ops).s (w0.applyOps ops).msb (w0.applyOps ops).data i =
        false) ∧
    (∀ (w : BitWriter) (b : Bool), (w.write b).data.length =
      if w.data.length ≤ w.bits / w.s then w.data.length + 1
      else w.data.length) ∧
    (∀ ops2 : List WOp,
      (w0.applyOps ops).data.length ≤ (w0.applyOps (ops ++ ops2)).data.length) := by
  have hpad := newBitWriter_pad h0
  obtain ⟨M, hg⟩ := wgood_applyOps hpad (wgood_init h0 hpad) ops
  rw [List.nil_append] at hg
  obtain ⟨hs, hmsb, hbits, hub, hlb, hbit⟩ := hg
  have hspos : 0 < (w0.applyOps ops).s := by omega
  refine ⟨?_, ?_, ?_, ?_⟩
  · rw [hbits]
    have h1 : (w0.applyOps ops).data.length * (w0.applyOps ops).s ≤
        M.length + (w0.applyOps ops).s - 1 := by omega
    have h2 : M.length + (w0.applyOps ops).s - 1 <
        ((w0.applyOps ops).data.length + 1) * (w0.applyOps ops).s := by
      have h3 : ((w0.applyOps ops).data.length + 1) * (w0.applyOps ops).s =
          (w0.applyOps ops).data.length * (w0.applyOps ops).s +
            (w0.applyOps ops).s := by ring
      omega
    exact (Nat.div_eq_of_lt_le h1 h2).symm
  · intro i hi
    rw [hbit i, List.getD_eq_default]
    omega
  · intro w b
    exact write_data_length w b
  · intro ops2
    rw [show w0.applyOps (ops ++ ops2) = (w0.applyOps ops).applyOps ops2 from
      List.foldl_append BitWriter.applyOp w0 ops ops2]
    exact applyOps_length_mono _ _

/-- C4 witness: one boolean write from a fresh 8-bit writer. -/
theorem c4_buffer_length_witness :
    (BitWriter.applyOps ⟨[], 0, 8, 128, 0, 0⟩ [.wbool true]).data.length =
      ((BitWriter.applyOps ⟨[], 0, 8, 128, 0, 0⟩ [.wbool true]).bits +
        (BitWriter.applyOps ⟨[], 0, 8, 128, 0, 0⟩ [.wbool true]).s - 1) /
        (BitWriter.applyOps ⟨[], 0, 8, 128, 0, 0⟩ [.wbool true]).s :=
  (c4_buffer_length 8 0 0 ⟨[], 0, 8, 128, 0, 0⟩ (by decide) [.wbool true]).1

/-- C5: block write failure is fatal and atomic.  Each `WriteN` panics exactly
when `leftPadd + bits > N`, and a panicking call leaves the writer (buffer
contents, buffer length, bit count) untouched. -/
theorem c5_write_panic (w : BitWriter) (leftPadd bits v : Nat) :
    ((w.write8 leftPadd bits v).2 = true ↔ 8 < leftPadd + bits) ∧
    ((w.write8 leftPadd bits v).2 = true → (w.write8 leftPadd bits v).1 = w) ∧
    ((w.write16 leftPadd bits v).2 = true ↔ 16 < leftPadd + bits) ∧
    ((w.write16 leftPadd bits v).2 = true → (w.write16 leftPadd bits v).1 = w) ∧
    ((w.write32 leftPadd bits v).2 = true ↔ 32 < leftPadd + bits) ∧
    ((w.write32 leftPadd bits v).2 = true → (w.write32 leftPadd bits v).1 = w) ∧
    ((w.write64 leftPadd bits v).2 = true ↔ 64 < leftPadd + bits) ∧
    ((w.write64 leftPadd bits v).2 = true → (w.write64 leftPadd bits v).1 = w) := by
  refine ⟨?_, ?_, ?_, ?_, ?_, ?_, ?_, ?_⟩
  · by_cases hc : 8 < leftPadd + bits <;> simp [BitWriter.write8, hc]
  · by_cases hc : 8 < leftPadd + bits <;> simp [BitWriter.write8, hc]
  · by_cases hc : 16 < leftPadd + bits <;> simp [BitWriter.write16, hc]
  · by_cases hc : 16 < leftPadd + bits <;> simp [BitWriter.write16, hc]
  · by_cases hc : 32 < leftPadd + bits <;> simp [BitWriter.write32, hc]
  · by_cases hc : 32 < leftPadd + bits <;> simp [BitWriter.write32, hc]
  · by_cases hc : 64 < leftPadd + bits <;> simp [BitWriter.write64, hc]
  · by_cases hc : 64 < leftPadd + bits <;> simp [BitWriter.write64, hc]

/-- C5 witness: `Write8(5, 4, 0)` panics (`5 + 4 > 8`) and leaves the fresh
writer untouched. -/
theorem c5_write_panic_witness :
    (BitWriter.write8 ⟨[], 0, 8, 128, 0, 0⟩ 5 4 0).1 = ⟨[], 0, 8, 128, 0, 0⟩ :=
  (c5_write_panic ⟨[], 0, 8, 128, 0, 0⟩ 5 4 0).2.1
    ((c5_write_panic ⟨[], 0, 8, 128, 0, 0⟩ 5 4 0).1.mpr (by omega))

/-- C6: worked example.  Over the bytes `[0b10101100, 0b11100011]` with no
padding, `Read16R(12, 0)` returns `0b101011001110` and `Read8R(4, 2)` returns
`0b1110`. -/
theorem c6_worked_example :
    (NewBitReader 8 [0b10101100, 0b11100011] 0 0).map
      (fun r => (r.read16R 12 0, r.read8R 4 2)) =
      some (some 0b101011001110, some 0b1110) := by decide

/-- C7: padding isolation.  A `uint8` writer with `lp = 1, rp = 0` given
`Write8(0, 8, 0xFF)` produces exactly two words; the first word's valid span
(bits 1–7 from the MSB, that is, the value modulo `2^7`) holds `1111111` and
its top padding bit is `0`. -/
theorem c7_padding_isolation :
    (NewBitWriter 8 1 0).map (fun w =>
      ((w.write8 0 8 0xFF).1.data, (w.write8 0 8 0xFF).1.data.length,
        ((w.write8 0 8 0xFF).1.data.getD 0 0).testBit 7,
        (w.write8 0 8 0xFF).1.data.getD 0 0 % 2 ^ 7)) =
      some ([0b01111111, 0b01000000], 2, false, 0b1111111) := by decide

/-- C8: seek contract (Reader and Writer, spec-modelled).  For `pos ≥ 0`,
`seek` succeeds and sets the position to exactly `pos` even beyond the logical
bit count, after which a cursor read reports end-of-stream with a `false` bit
and no state change; for `pos < 0` it fails with the invalid-position error
and leaves the whole state unchanged. -/
theorem c8_seek (c : CursorReader) (d : CursorWriter) (p : Int) :
    (0 ≤ p →
      (c.seek p).2 = false ∧ (c.seek p).1.pos = p ∧
      (d.seek p).2 = false ∧ (d.seek p).1.pos = p ∧
      ((c.base.bits : Int) ≤ p →
        (c.seek p).1.readBit.2.2 = true ∧
        (c.seek p).1.readBit.2.1 = false ∧
        (c.seek p).1.readBit.1 = (c.seek p).1)) ∧
    (p < 0 →
      (c.seek p).2 = true ∧ (c.seek p).1 = c ∧
      (d.seek p).2 = true ∧ (d.seek p).1 = d) := by
  constructor
  · intro hp
    rw [CursorReader.seek, if_neg (by omega), CursorWriter.seek, if_neg (by omega)]
    refine ⟨rfl, rfl, rfl, rfl, ?_⟩
    intro hb
    rw [CursorReader.readBit]
    rw [if_pos (show (({ c with pos := p } : CursorReader).base.bits : Int) ≤
      ({ c with pos := p } : CursorReader).pos from hb)]
    exact ⟨rfl, rfl, rfl⟩
  · intro hp
    rw [CursorReader.seek, if_pos hp, CursorWriter.seek, if_pos hp]
    exact ⟨rfl, rfl, rfl, rfl⟩

/-- C8 witness: seeking to 100 on an 8-bit stream succeeds, the position is
100, and the next cursor read reports end-of-stream. -/
theorem c8_seek_witness :
    (CursorReader.seek ⟨⟨[172], 8, 8, 128⟩, 0⟩ 100).1.pos = 100 ∧
    (CursorReader.seek ⟨⟨[172], 8, 8, 128⟩, 0⟩ 100).1.readBit.2.2 = true := by
  have h := (c8_seek ⟨⟨[172], 8, 8, 128⟩, 0⟩ ⟨⟨[], 0, 8, 128, 0, 0⟩, 0⟩ 100).1
    (by norm_num)
  exact ⟨h.2.1, (h.2.2.2.2 (by norm_num)).1⟩

/-- C10: implicit memory-safety of block reads.  Under the construction-time
invariant `bits ≤ len(data) * s` (and `s > 0`), the checked block read never
takes its out-of-bounds branch and agrees with the total function, every word
index touched is below `len(data)`, and every mask shift amount is below the
valid span (hence below the word width). -/
theorem c10_memory_safety (r : BitReader) (bits n : Nat) (hs : 0 < r.s)
    (hbits : r.bits ≤ r.data.length * r.s) :
    r.rightChecked bits n = some (r.right bits n) ∧
    (∀ k, k < r.endIdx bits n - r.startIdx bits n →
      (r.startIdx bits n + k) / r.s < r.data.length ∧
      (r.startIdx bits n + k) % r.s < r.s) := by
  refine ⟨rightChecked_eq r bits n hs hbits, ?_⟩
  intro k hk
  refine ⟨?_, Nat.mod_lt _ hs⟩
  have h1 : r.startIdx bits n + k < r.endIdx bits n := by omega
  have h2 : r.endIdx bits n ≤ r.bits := min_le_right _ _
  rw [Nat.div_lt_iff_lt_mul hs]
  omega

/-- C10 witness: a two-byte no-padding reader with a 12-bit block read. -/
theorem c10_memory_safety_witness :
    BitReader.rightChecked ⟨[172, 227], 16, 8, 128⟩ 12 0 =
      some (BitReader.right ⟨[172, 227], 16, 8, 128⟩ 12 0) :=
  (c10_memory_safety ⟨[172, 227], 16, 8, 128⟩ 12 0 (by decide) (by decide)).1

end Bitstream
